import Mathlib

/-!
Shallow embedding of the `signed` crate: branded containers, indices and
ranges with `Unknown`/`NonEmpty` proof tags.

The Rust brand (the invariant lifetime parameter `C : Contract` carried by
`Seal<C>`) is modelled as a `Nat`-valued `brand` field: two `region` calls
with distinct brand values model two independent region entries.  The Rust
proof type parameter (`Unknown` / `NonEmpty`, zero-sized tags) is modelled
as a data field of type `Proof`.  `usize` is modelled as `Nat`; every
arithmetic step is in the range where `usize` and `Nat` agree under the
hypotheses of the theorems that use it.
-/

namespace Signed

/-- The proof tag of a range or index: `Unknown` (may be empty) or
`NonEmpty` (guaranteed at least one element), from `src/core/proof.rs`
as described by the crate docs in `range.rs`. -/
inductive Proof where
  | Unknown : Proof
  | NonEmpty : Proof
deriving DecidableEq

/-- An index into a branded container, from `src/core/index.rs`:
a position (`index: usize`), the brand (the `Seal<C>` contract,
modelled as a `Nat`), and the proof tag (`PhantomData<P>`). -/
structure Index where
  index : Nat
  brand : Nat
  proof : Proof
deriving DecidableEq

/-- Returns the index as an integer offset (`Index::integer`). -/
def Index.integer (i : Index) : Nat := i.index

/-- Modelled from the spec: `Index::after` (`src/core/proof.rs` or a module
missing from `src/`; used by `Container::scan_from`): position + 1, same
Brand/Proof. -/
def Index.after (i : Index) : Index := ⟨i.index + 1, i.brand, i.proof⟩

/-- A span `[start, end)` within a branded container, from
`src/core/range.rs`: `start`/`end` (`usize`), the brand (`Seal<C>`) and the
proof tag (`PhantomData<P>`).  The field `end` is spelled `end_` because
`end` is a Lean keyword. -/
structure Range where
  start : Nat
  end_ : Nat
  brand : Nat
  proof : Proof
deriving DecidableEq

/-- Returns the length of the range (`Range::len`: `self.end - self.start`). -/
def Range.len (r : Range) : Nat := r.end_ - r.start

/-- Returns true if the range is empty (`Range::is_empty`:
`self.start >= self.end`). -/
def Range.is_empty (r : Range) : Bool := decide (r.start ≥ r.end_)

/-- Attempts to create a NonEmpty range (`Range::nonempty`): on success the
result is `from_nonempty(self.start(), self.end())`, i.e. the same span with
the `NonEmpty` tag. -/
def Range.nonempty (r : Range) : Option Range :=
  if r.is_empty then none else some ⟨r.start, r.end_, r.brand, Proof.NonEmpty⟩

/-- Returns the first index of the range (`Range::first`:
`Index::new(self.start)`, keeping the proof parameter `P`). -/
def Range.first (r : Range) : Index := ⟨r.start, r.brand, r.proof⟩

/-- Returns the middle index of the range (`Range::upper_middle`:
`mid = self.len() / 2 + self.start`). -/
def Range.upper_middle (r : Range) : Index := ⟨r.len / 2 + r.start, r.brand, r.proof⟩

/-- Returns the last index of the range (`Range::last`, only available on
`NonEmpty` ranges: `Index::new(self.end - 1)`, result proof `Index<C>`
defaults to `NonEmpty`). -/
def Range.last (r : Range) : Index := ⟨r.end_ - 1, r.brand, Proof.NonEmpty⟩

/-- Increments the start by one (`Range::tail`, only on `NonEmpty` ranges;
result is `from_unknown(start + 1, end)`). -/
def Range.tail (r : Range) : Range := ⟨r.start + 1, r.end_, r.brand, Proof.Unknown⟩

/-- Decrements the end by one (`Range::head`, only on `NonEmpty` ranges;
result is `from_unknown(start, end - 1)`). -/
def Range.head (r : Range) : Range := ⟨r.start, r.end_ - 1, r.brand, Proof.Unknown⟩

/-- Splits the range in half (`Range::split_in_half`):
`mid = (self.end - self.start) / 2 + self.start`; left half is
`from_unknown(start, mid)`, right half is `from_any(mid, end)` keeping the
proof parameter `P`. -/
def Range.split_in_half (r : Range) : Range × Range :=
  let mid := (r.end_ - r.start) / 2 + r.start
  (⟨r.start, mid, r.brand, Proof.Unknown⟩, ⟨mid, r.end_, r.brand, r.proof⟩)

/-- Returns Some if `index` is contained within the range
(`Range::contains`: `index >= self.start && index < self.end`, returning
`Index::new(index)` with the proof parameter `P`). -/
def Range.contains (r : Range) (index : Nat) : Option Index :=
  if r.start ≤ index ∧ index < r.end_ then some ⟨index, r.brand, r.proof⟩ else none

/-- Advances the range forwards (`Range::advance`, only on `NonEmpty`
ranges): `next.start += 1`; mutates in place and returns true when
`next.start < next.end`, else returns false and leaves the range unchanged.
Mutation is modelled by returning the new range alongside the Bool. -/
def Range.advance (r : Range) : Bool × Range :=
  let next : Range := ⟨r.start + 1, r.end_, r.brand, r.proof⟩
  if next.start < next.end_ then (true, next) else (false, r)

/-- Advances the range backwards (`Range::advance_back`, only on `NonEmpty`
ranges): `next.end -= 1`; mutates in place and returns true when
`next.start < next.end`, else returns false and leaves the range unchanged. -/
def Range.advance_back (r : Range) : Bool × Range :=
  let next : Range := ⟨r.start, r.end_ - 1, r.brand, r.proof⟩
  if next.start < next.end_ then (true, next) else (false, r)

/-- The iterator over a range (`RangeIter` in `src/core/range.rs`):
start, end and the brand (`Seal<C>`). -/
structure RangeIter where
  start : Nat
  end_ : Nat
  brand : Nat
deriving DecidableEq

/-- Conversion of a range into its iterator (`IntoIterator for Range`). -/
def Range.into_iter (r : Range) : RangeIter := ⟨r.start, r.end_, r.brand⟩

/-- One forward step of the iterator (`Iterator::next` for `RangeIter`):
when `start < end`, yields `Index::new(start)` (item type `Index<C>`, proof
`NonEmpty`) and increments start. -/
def RangeIter.next (it : RangeIter) : Option (Index × RangeIter) :=
  if it.start < it.end_ then
    some (⟨it.start, it.brand, Proof.NonEmpty⟩, ⟨it.start + 1, it.end_, it.brand⟩)
  else none

/-- One backward step of the iterator (`DoubleEndedIterator::next_back`):
when `start < end`, decrements end and yields `Index::new(end)`. -/
def RangeIter.next_back (it : RangeIter) : Option (Index × RangeIter) :=
  if it.start < it.end_ then
    some (⟨it.end_ - 1, it.brand, Proof.NonEmpty⟩, ⟨it.start, it.end_ - 1, it.brand⟩)
  else none

/-- A branded container (`src/container/container.rs`): the `Seal<C>`
brand and the underlying storage, modelled as a `List`. -/
structure Container (T : Type) where
  brand : Nat
  container : List T
deriving DecidableEq

/-- Returns the length of the container (`Container::len`, via
`ContainerTrait::base_len`, which is slice/Vec length). -/
def Container.len {T : Type} (c : Container T) : Nat := c.container.length

/-- Returns true if the container is empty (`Container::is_empty`:
`self.len() == 0`). -/
def Container.is_empty {T : Type} (c : Container T) : Bool := decide (c.len = 0)

/-- Returns a range into the container (`Container::range`:
`Range::from_unknown(0, self.len())`). -/
def Container.range {T : Type} (c : Container T) : Range :=
  ⟨0, c.len, c.brand, Proof.Unknown⟩

/-- The region entry point (`region` in `src/lib.rs`): mints a fresh brand
and hands the callback `Container::new(container)` sealed with it.  The
brand freshness is a parameter here: independent region calls are modelled
by applying `region` at distinct brand values. -/
def region {T : Type} (brand : Nat) (storage : List T) : Container T :=
  ⟨brand, storage⟩

/-- The slice view `&self[r]` of a container at a range
(`ops::Index<Range<C, P>> for Container`:
`from_raw_parts(begin + r.start(), r.len())`). -/
def Container.sliceRange {T : Type} (c : Container T) (r : Range) : List T :=
  (c.container.drop r.start).take r.len

/-- The loop of `Container::scan_from`: iterates over the items, and while
`f item` holds increments the accumulator `e`; a failing item breaks. -/
def scanLoop {T : Type} (f : T → Bool) : List T → Nat → Nat
  | [], e => e
  | x :: xs, e => if f x then scanLoop f xs (e + 1) else e

/-- The loop of `Container::scan_from_rev`: iterates over the items, and
while `f item` holds decrements the accumulator `s`; a failing item breaks. -/
def scanLoopRev {T : Type} (f : T → Bool) : List T → Nat → Nat
  | [], s => s
  | x :: xs, s => if f x then scanLoopRev f xs (s - 1) else s

/-- Scans forward from `index` (`Container::scan_from`): starting with
`end = index.integer()`, walks the slice `&self[index.after()..]` (the
elements from position `index + 1` on) incrementing `end` while the
predicate holds, then adds one, and returns
`Range::from_nonempty(index.integer(), end)`. -/
def Container.scan_from {T : Type} (c : Container T) (i : Index) (f : T → Bool) : Range :=
  let e := scanLoop f (c.container.drop (i.integer + 1)) i.integer
  ⟨i.integer, e + 1, c.brand, Proof.NonEmpty⟩

/-- Scans backward from `index` (`Container::scan_from_rev`): starting with
`start = index.integer()`, walks the slice `&self[..index]` reversed (the
elements before position `index`, from higher indices toward lower),
decrementing `start` while the predicate holds, and returns
`Range::from_nonempty(start, index.integer() + 1)`. -/
def Container.scan_from_rev {T : Type} (c : Container T) (i : Index) (f : T → Bool) : Range :=
  let s := scanLoopRev f ((c.container.take i.integer).reverse) i.integer
  ⟨s, i.integer + 1, c.brand, Proof.NonEmpty⟩

/-- The list effect of `ptr::swap(&mut l[a], &mut l[b])` as performed by
`Container::swap`: both positions are read and written over.  Out-of-range
positions (undefined behaviour in the source) leave the list unchanged. -/
def listSwap {T : Type} (l : List T) (a b : Nat) : List T :=
  match l.get? a, l.get? b with
  | some x, some y => (l.set a y).set b x
  | _, _ => l

/-- Swaps the element at index `a` with the element at index `b`
(`Container::swap`, via `ptr::swap` on the two element pointers). -/
def Container.swap {T : Type} (c : Container T) (a b : Index) : Container T :=
  ⟨c.brand, listSwap c.container a.integer b.integer⟩

/-- Divides the container into two at `index` (`Container::split_at`, via
`SplitUnchecked for [T]`: `(self[..index], self[index..])`).  Each half is
returned under a fresh brand (`impl Contract` with `C::SEALED`), here the
parameters `bl` and `br`. -/
def Container.split_at {T : Type} (c : Container T) (i : Index) (bl br : Nat) :
    Container T × Container T :=
  (⟨bl, c.container.take i.integer⟩, ⟨br, c.container.drop i.integer⟩)

/-- Divides the container into two at `index` mutably
(`Container::split_at_mut`, via `SplitUncheckedMut for [T]`:
`from_raw_parts_mut(ptr, index)` and `from_raw_parts_mut(ptr + index,
len - index)`), which views the same partition of the storage. -/
def Container.split_at_mut {T : Type} (c : Container T) (i : Index) (bl br : Nat) :
    Container T × Container T :=
  (⟨bl, c.container.take i.integer⟩, ⟨br, c.container.drop i.integer⟩)


/-- The ranges obtainable from a container by its safe public range
operations: `Container::range`, `Range::nonempty`, `Range::split_in_half`
(either half), `Range::tail` / `Range::head` and `Range::advance` /
`Range::advance_back` (the last four only exist on `NonEmpty` ranges in
the source). -/
inductive Derived {T : Type} (c : Container T) : Range → Prop where
  | base : Derived c c.range
  | of_nonempty {r r' : Range} : Derived c r → r.nonempty = some r' → Derived c r'
  | half_left {r : Range} : Derived c r → Derived c r.split_in_half.1
  | half_right {r : Range} : Derived c r → Derived c r.split_in_half.2
  | of_tail {r : Range} : Derived c r → r.proof = Proof.NonEmpty → Derived c r.tail
  | of_head {r : Range} : Derived c r → r.proof = Proof.NonEmpty → Derived c r.head
  | of_advance {r : Range} : Derived c r → r.proof = Proof.NonEmpty →
      Derived c r.advance.2
  | of_advance_back {r : Range} : Derived c r → r.proof = Proof.NonEmpty →
      Derived c r.advance_back.2

/-- The indices an iterator can yield, through any interleaving of forward
(`next`) and backward (`next_back`) steps. -/
inductive Yields : RangeIter → Index → Prop where
  | fwd {it it' : RangeIter} {i : Index} : it.next = some (i, it') → Yields it i
  | bwd {it it' : RangeIter} {i : Index} : it.next_back = some (i, it') → Yields it i
  | fwd_tail {it it' : RangeIter} {i j : Index} :
      it.next = some (i, it') → Yields it' j → Yields it j
  | bwd_tail {it it' : RangeIter} {i j : Index} :
      it.next_back = some (i, it') → Yields it' j → Yields it j

/-- The indices producible from a container by the safe public index
operations along the paths whose positions are provably in bounds — the
universe of the amended bounds claim: `Range::first` and
`Range::upper_middle` restricted to nonempty derived ranges, `Range::last`
on a `NonEmpty` derived range, `Range::contains`, and range iteration.
For the full set of safely obtainable indices, boundary cases included,
see `IndexObtained`. -/
inductive IndexMinted {T : Type} (c : Container T) : Index → Prop where
  | of_first {r : Range} : Derived c r → r.start < r.end_ → IndexMinted c r.first
  | of_upper_middle {r : Range} : Derived c r → r.start < r.end_ →
      IndexMinted c r.upper_middle
  | of_last {r : Range} : Derived c r → r.proof = Proof.NonEmpty → IndexMinted c r.last
  | of_contains {r : Range} {n : Nat} {i : Index} : Derived c r →
      r.contains n = some i → IndexMinted c i
  | of_iter {r : Range} {i : Index} : Derived c r → Yields r.into_iter i →
      IndexMinted c i

/-- Every index obtainable from a container by its safe public operations,
with no in-bounds restriction: `Range::first` and `Range::upper_middle` on
any derived range (empty ones included, where they may yield a position
equal to the container length), `Range::last` on a `NonEmpty` derived
range, `Range::contains`, range iteration, and `Index::after`. -/
inductive IndexObtained {T : Type} (c : Container T) : Index → Prop where
  | of_first {r : Range} : Derived c r → IndexObtained c r.first
  | of_upper_middle {r : Range} : Derived c r → IndexObtained c r.upper_middle
  | of_last {r : Range} : Derived c r → r.proof = Proof.NonEmpty →
      IndexObtained c r.last
  | of_contains {r : Range} {n : Nat} {i : Index} : Derived c r →
      r.contains n = some i → IndexObtained c i
  | of_iter {r : Range} {i : Index} : Derived c r → Yields r.into_iter i →
      IndexObtained c i
  | of_after {i : Index} : IndexObtained c i → IndexObtained c i.after

/-- Every safely derived range lies within its container: ordered bounds,
end at most the container length, a `NonEmpty` tag implies a nonempty span,
and the brand is the container's brand. -/
theorem derived_spec {T : Type} {c : Container T} {r : Range} (h : Derived c r) :
    r.start ≤ r.end_ ∧ r.end_ ≤ c.len ∧
      (r.proof = Proof.NonEmpty → r.start < r.end_) ∧ r.brand = c.brand := by
  induction h with
  | base =>
      exact ⟨Nat.zero_le _, Nat.le_refl _,
        fun hp => absurd hp (by simp [Container.range]), rfl⟩
  | @of_nonempty r r' h hsome ih =>
      obtain ⟨h1, h2, -, h4⟩ := ih
      simp only [Range.nonempty, Range.is_empty] at hsome
      by_cases hcond : r.start ≥ r.end_
      · simp [hcond] at hsome
      · simp [hcond] at hsome
        subst hsome
        exact ⟨show r.start ≤ r.end_ from h1, show r.end_ ≤ c.len from h2,
          fun _ => show r.start < r.end_ by omega, show r.brand = c.brand from h4⟩
  | @half_left r h ih =>
      obtain ⟨h1, h2, -, h4⟩ := ih
      have hd : (r.end_ - r.start) / 2 ≤ r.end_ - r.start := Nat.div_le_self _ _
      exact ⟨show r.start ≤ (r.end_ - r.start) / 2 + r.start by omega,
        show (r.end_ - r.start) / 2 + r.start ≤ c.len by omega,
        fun hp => absurd hp (by simp [Range.split_in_half]),
        show r.brand = c.brand from h4⟩
  | @half_right r h ih =>
      obtain ⟨h1, h2, h3, h4⟩ := ih
      have hd : (r.end_ - r.start) / 2 ≤ r.end_ - r.start := Nat.div_le_self _ _
      refine ⟨show (r.end_ - r.start) / 2 + r.start ≤ r.end_ by omega,
        show r.end_ ≤ c.len from h2, ?_, show r.brand = c.brand from h4⟩
      intro hp
      have hlt := h3 (show r.proof = Proof.NonEmpty from hp)
      have hdlt : (r.end_ - r.start) / 2 < r.end_ - r.start :=
        Nat.div_lt_self (by omega) (by omega)
      exact show (r.end_ - r.start) / 2 + r.start < r.end_ by omega
  | @of_tail r h hp ih =>
      obtain ⟨h1, h2, h3, h4⟩ := ih
      have hlt := h3 hp
      exact ⟨show r.start + 1 ≤ r.end_ by omega, show r.end_ ≤ c.len from h2,
        fun hc => absurd hc (by simp [Range.tail]),
        show r.brand = c.brand from h4⟩
  | @of_head r h hp ih =>
      obtain ⟨h1, h2, h3, h4⟩ := ih
      have hlt := h3 hp
      exact ⟨show r.start ≤ r.end_ - 1 by omega, show r.end_ - 1 ≤ c.len by omega,
        fun hc => absurd hc (by simp [Range.head]),
        show r.brand = c.brand from h4⟩
  | @of_advance r h hp ih =>
      obtain ⟨h1, h2, h3, h4⟩ := ih
      by_cases hc : r.start + 1 < r.end_
      · have he : r.advance.2 = ⟨r.start + 1, r.end_, r.brand, r.proof⟩ := by
          simp [Range.advance, hc]
        rw [he]
        exact ⟨show r.start + 1 ≤ r.end_ by omega, show r.end_ ≤ c.len from h2,
          fun _ => show r.start + 1 < r.end_ from hc,
          show r.brand = c.brand from h4⟩
      · have he : r.advance.2 = r := by simp [Range.advance, hc]
        rw [he]
        exact ⟨h1, h2, h3, h4⟩
  | @of_advance_back r h hp ih =>
      obtain ⟨h1, h2, h3, h4⟩ := ih
      by_cases hc : r.start < r.end_ - 1
      · have he : r.advance_back.2 = ⟨r.start, r.end_ - 1, r.brand, r.proof⟩ := by
          simp [Range.advance_back, hc]
        rw [he]
        exact ⟨show r.start ≤ r.end_ - 1 by omega, show r.end_ - 1 ≤ c.len by omega,
          fun _ => show r.start < r.end_ - 1 from hc,
          show r.brand = c.brand from h4⟩
      · have he : r.advance_back.2 = r := by simp [Range.advance_back, hc]
        rw [he]
        exact ⟨h1, h2, h3, h4⟩

/-- Every index an iterator yields is below any bound on the iterator's
end, and carries the iterator's brand. -/
theorem yields_spec {L : Nat} {it : RangeIter} {j : Index} (h : Yields it j)
    (hL : it.end_ ≤ L) : j.index < L ∧ j.brand = it.brand := by
  induction h with
  | @fwd it it' i hstep =>
      by_cases hc : it.start < it.end_
      · simp [RangeIter.next, hc] at hstep
        obtain ⟨h1, h2⟩ := hstep
        subst h1
        exact ⟨show it.start < L by omega, rfl⟩
      · simp [RangeIter.next, hc] at hstep
  | @bwd it it' i hstep =>
      by_cases hc : it.start < it.end_
      · simp [RangeIter.next_back, hc] at hstep
        obtain ⟨h1, h2⟩ := hstep
        subst h1
        exact ⟨show it.end_ - 1 < L by omega, rfl⟩
      · simp [RangeIter.next_back, hc] at hstep
  | @fwd_tail it it' i j hstep htail ih =>
      by_cases hc : it.start < it.end_
      · simp [RangeIter.next, hc] at hstep
        obtain ⟨h1, h2⟩ := hstep
        subst h2
        exact ih (show it.end_ ≤ L from hL)
      · simp [RangeIter.next, hc] at hstep
  | @bwd_tail it it' i j hstep htail ih =>
      by_cases hc : it.start < it.end_
      · simp [RangeIter.next_back, hc] at hstep
        obtain ⟨h1, h2⟩ := hstep
        subst h2
        obtain ⟨ha, hb⟩ := ih (show it.end_ - 1 ≤ L by omega)
        exact ⟨ha, hb⟩
      · simp [RangeIter.next_back, hc] at hstep

/-- Every safely minted index is in bounds for its container and carries
the container's brand. -/
theorem minted_spec {T : Type} {c : Container T} {i : Index}
    (h : IndexMinted c i) : i.index < c.len ∧ i.brand = c.brand := by
  cases h with
  | @of_first r hd hne =>
      obtain ⟨-, h2, -, h4⟩ := derived_spec hd
      exact ⟨show r.start < c.len by omega, show r.brand = c.brand from h4⟩
  | @of_upper_middle r hd hne =>
      obtain ⟨-, h2, -, h4⟩ := derived_spec hd
      have hdlt : (r.end_ - r.start) / 2 < r.end_ - r.start :=
        Nat.div_lt_self (by omega) (by omega)
      refine ⟨?_, show r.brand = c.brand from h4⟩
      show r.len / 2 + r.start < c.len
      simp only [Range.len]
      omega
  | @of_last r hd hp =>
      obtain ⟨-, h2, h3, h4⟩ := derived_spec hd
      have hlt := h3 hp
      exact ⟨show r.end_ - 1 < c.len by omega, show r.brand = c.brand from h4⟩
  | @of_contains r n i hd hsome =>
      obtain ⟨-, h2, -, h4⟩ := derived_spec hd
      simp only [Range.contains] at hsome
      by_cases hcond : r.start ≤ n ∧ n < r.end_
      · rw [if_pos hcond] at hsome
        obtain rfl := Option.some.inj hsome
        exact ⟨show n < c.len by omega, show r.brand = c.brand from h4⟩
      · rw [if_neg hcond] at hsome
        exact absurd hsome (by simp)
  | @of_iter r i hd hy =>
      obtain ⟨-, h2, -, h4⟩ := derived_spec hd
      obtain ⟨ha, hb⟩ := yields_spec hy (show (r.into_iter).end_ ≤ c.len from h2)
      exact ⟨ha, show i.brand = c.brand from hb.trans h4⟩

/-- Every safely obtainable index — in-bounds or boundary — carries its
container's brand: each producing operation copies the brand of the range
(itself the container's brand, by `derived_spec`), and `Index::after`
keeps the brand of its argument. -/
theorem obtained_brand {T : Type} {c : Container T} {i : Index}
    (h : IndexObtained c i) : i.brand = c.brand := by
  induction h with
  | @of_first r hd =>
      exact show r.brand = c.brand from (derived_spec hd).2.2.2
  | @of_upper_middle r hd =>
      exact show r.brand = c.brand from (derived_spec hd).2.2.2
  | @of_last r hd hp =>
      exact show r.brand = c.brand from (derived_spec hd).2.2.2
  | @of_contains r n i hd hsome =>
      simp only [Range.contains] at hsome
      by_cases hcond : r.start ≤ n ∧ n < r.end_
      · rw [if_pos hcond] at hsome
        obtain rfl := Option.some.inj hsome
        exact show r.brand = c.brand from (derived_spec hd).2.2.2
      · rw [if_neg hcond] at hsome
        exact absurd hsome (by simp)
  | @of_iter r i hd hy =>
      have hb := (yields_spec hy (Nat.le_refl (r.into_iter).end_)).2
      exact hb.trans (show r.brand = c.brand from (derived_spec hd).2.2.2)
  | @of_after i hobt ih =>
      exact ih

/-- The forward scan loop adds the length of the longest predicate-satisfying
prefix of the scanned items to its accumulator. -/
theorem scanLoop_eq {T : Type} (f : T → Bool) :
    ∀ (l : List T) (e : Nat), scanLoop f l e = e + (l.takeWhile f).length := by
  intro l
  induction l with
  | nil => intro e; simp [scanLoop]
  | cons x xs ih =>
      intro e
      by_cases hfx : f x = true
      · simp [scanLoop, List.takeWhile_cons, hfx, ih]
        omega
      · simp [scanLoop, List.takeWhile_cons, hfx]

/-- The backward scan loop subtracts the length of the longest
predicate-satisfying prefix of the scanned items from its accumulator. -/
theorem scanLoopRev_eq {T : Type} (f : T → Bool) :
    ∀ (l : List T) (s : Nat), scanLoopRev f l s = s - (l.takeWhile f).length := by
  intro l
  induction l with
  | nil => intro s; simp [scanLoopRev]
  | cons x xs ih =>
      intro s
      by_cases hfx : f x = true
      · simp [scanLoopRev, List.takeWhile_cons, hfx, ih]
        omega
      · simp [scanLoopRev, List.takeWhile_cons, hfx]

/-- Setting a position of a list to the value it already holds leaves the
list unchanged. -/
theorem set_of_getq {T : Type} {l : List T} {i : Nat} {x : T}
    (h : l.get? i = some x) : l.set i x = l := by
  have hlen : i < l.length := by
    by_contra hge
    rw [List.get?_eq_none.mpr (by omega)] at h
    exact absurd h (by simp)
  apply List.ext_get?_iff.mpr
  intro n
  by_cases hn : i = n
  · subst hn
    rw [List.get?_set_eq_of_lt _ hlen, h]
  · rw [List.get?_set_ne _ _ hn]

/-- C1: for any two independent region calls (distinct brands), every
Index obtainable from one region's Container by its safe operations —
including the boundary indices `first()`/`upper_middle()` yield on empty
derived ranges, and `Index::after` — carries that region's brand, so it
can never satisfy the brand-equality requirement that typing an indexing
operation against the other region's Container imposes: cross-brand use
is rejected by the brand rather than ever reaching the unchecked
(possibly out-of-range) access. -/
theorem brand_isolation {T : Type} (bA bB : Nat) (sA sB : List T) (i : Index)
    (hm : IndexObtained (region bA sA) i) (hne : bA ≠ bB) :
    i.brand ≠ (region bB sB).brand := by
  have hb : i.brand = (region bA sA).brand := obtained_brand hm
  intro hEq
  exact hne ((show bA = i.brand from hb.symm).trans hEq)

/-- Witness for C1 at a concrete pair of regions, using the index that
`first()` yields on the empty range of an empty region — a boundary index
obtainable from a region while out of bounds for it. -/
theorem brand_isolation_witness :
    ((region 1 ([] : List Nat)).range.first).brand ≠
      (region 2 ([] : List Nat)).brand :=
  brand_isolation 1 2 [] [] _
    (IndexObtained.of_first Derived.base) (by decide)

/-- C2 counterexample: `Range::first()` is a safe public operation callable
on the (possibly empty) `Unknown` range of a container, and on the empty
container it produces an index at position 0, which is not `< 0`. -/
theorem safe_index_counterexample :
    ¬ (((region 0 ([] : List Nat)).range.first).index <
        (region 0 ([] : List Nat)).len) := by
  decide

/-- C2 (amended): for every Index produced by a safe public operation —
`Range::first()` and `Range::upper_middle()` on a nonempty derived range,
`Range::last()` on a `NonEmpty` derived range, `Range::contains()`, or
range iteration — on a Range derived from a Container of length L, the
index's position satisfies position < L. -/
theorem safe_index_in_bounds {T : Type} (c : Container T) (i : Index)
    (h : IndexMinted c i) : i.index < c.len :=
  (minted_spec h).1

/-- Witness for C2 at a concrete container. -/
theorem safe_index_in_bounds_witness :
    ((region 0 ([5, 6] : List Nat)).range.first).index <
      (region 0 ([5, 6] : List Nat)).len :=
  safe_index_in_bounds _ _ (IndexMinted.of_first Derived.base (by decide))

/-- C3: `split_in_half` returns left `[start, mid)` tagged `Unknown` and
right `[mid, end)` inheriting the input's proof, with
`mid = start + (end - start) / 2` (floor division); concretely, on `[0,7)`
mid is 3, on `[0,6)` mid is 3, and on `[0,1)` mid is 0 with the left half
empty and the right half the single element. -/
theorem split_in_half_spec :
    (∀ r : Range,
        r.split_in_half.1 =
          ⟨r.start, r.start + (r.end_ - r.start) / 2, r.brand, Proof.Unknown⟩ ∧
        r.split_in_half.2 =
          ⟨r.start + (r.end_ - r.start) / 2, r.end_, r.brand, r.proof⟩) ∧
    (⟨0, 7, 0, Proof.Unknown⟩ : Range).split_in_half.2.start = 3 ∧
    (⟨0, 6, 0, Proof.Unknown⟩ : Range).split_in_half.2.start = 3 ∧
    (⟨0, 1, 0, Proof.Unknown⟩ : Range).split_in_half.2.start = 0 ∧
    (⟨0, 1, 0, Proof.Unknown⟩ : Range).split_in_half.1.len = 0 ∧
    (⟨0, 1, 0, Proof.Unknown⟩ : Range).split_in_half.2 =
      ⟨0, 1, 0, Proof.Unknown⟩ := by
  refine ⟨fun r => ⟨?_, ?_⟩, by decide, by decide, by decide, by decide, by decide⟩
  · simp [Range.split_in_half, Range.mk.injEq, Nat.add_comm]
  · simp [Range.split_in_half, Range.mk.injEq, Nat.add_comm]

/-- The predicate-satisfying prefix is never longer than the list. -/
theorem takeWhile_length_le {T : Type} (f : T → Bool) :
    ∀ l : List T, (l.takeWhile f).length ≤ l.length := by
  intro l
  induction l with
  | nil => simp
  | cons x xs ih =>
      by_cases hfx : f x = true
      · simp [List.takeWhile_cons, hfx]
        omega
      · simp [List.takeWhile_cons, hfx]

/-- C4: `scan_from(i, f)` on an in-bounds same-brand index returns a
`NonEmpty` same-brand range that starts at `i`, always includes `i`, ends
one past the last consecutive element after `i` satisfying the predicate,
stays within the container, and depends only on the elements strictly after
`i` (it never examines elements at or before `i`); concretely, on storage
`[1,2,3,4,5,6,7]` starting at the index of value 4 with predicate `x < 3`,
the resulting range holds exactly the element 4. -/
theorem scan_from_spec :
    (∀ (T : Type) (c : Container T) (i : Index) (f : T → Bool),
        i.brand = c.brand → i.index < c.len →
        (c.scan_from i f).proof = Proof.NonEmpty ∧
        (c.scan_from i f).brand = c.brand ∧
        (c.scan_from i f).start = i.index ∧
        (c.scan_from i f).end_ =
          i.index + 1 + ((c.container.drop (i.index + 1)).takeWhile f).length ∧
        i.index < (c.scan_from i f).end_ ∧
        (c.scan_from i f).end_ ≤ c.len ∧
        (∀ c' : Container T, c'.brand = c.brand →
            c'.container.drop (i.index + 1) = c.container.drop (i.index + 1) →
            c'.scan_from i f = c.scan_from i f)) ∧
    (region 0 ([1, 2, 3, 4, 5, 6, 7] : List Nat)).sliceRange
        ((region 0 ([1, 2, 3, 4, 5, 6, 7] : List Nat)).scan_from
          ⟨3, 0, Proof.NonEmpty⟩ (fun x => decide (x < 3))) = [4] := by
  refine ⟨?_, by decide⟩
  intro T c i f hbrand hlt
  have hend : (c.scan_from i f).end_ =
      i.index + 1 + ((c.container.drop (i.index + 1)).takeWhile f).length := by
    show scanLoop f (c.container.drop (i.index + 1)) i.index + 1 = _
    rw [scanLoop_eq]
    omega
  have htw : ((c.container.drop (i.index + 1)).takeWhile f).length ≤
      c.len - (i.index + 1) := by
    have h1 := takeWhile_length_le f (c.container.drop (i.index + 1))
    rw [List.length_drop] at h1
    exact h1
  refine ⟨rfl, rfl, rfl, hend, ?_, ?_, ?_⟩
  · omega
  · omega
  · intro c' hb hdrop
    simp only [Container.scan_from, Index.integer, hb, hdrop]

/-- Witness for C4 at the concrete storage of the claim. -/
theorem scan_from_spec_witness :
    ((region 0 ([1, 2, 3, 4, 5, 6, 7] : List Nat)).scan_from
        ⟨3, 0, Proof.NonEmpty⟩ (fun x => decide (x < 3))).start = 3 :=
  (scan_from_spec.1 Nat _ ⟨3, 0, Proof.NonEmpty⟩ _ rfl (by decide)).2.2.1

/-- C5: `scan_from_rev(i, f)` on an in-bounds same-brand index returns a
`NonEmpty` same-brand range ending one past `i` that always includes `i`,
extended backward over the consecutive elements just before `i` — scanned
from higher indices toward lower, i.e. over the reversal of the prefix
before `i` — for which the predicate held. -/
theorem scan_from_rev_spec (T : Type) (c : Container T) (i : Index) (f : T → Bool)
    (hbrand : i.brand = c.brand) (hlt : i.index < c.len) :
    (c.scan_from_rev i f).proof = Proof.NonEmpty ∧
    (c.scan_from_rev i f).brand = c.brand ∧
    (c.scan_from_rev i f).end_ = i.index + 1 ∧
    (c.scan_from_rev i f).start =
      i.index - (((c.container.take i.index).reverse.takeWhile f)).length ∧
    (c.scan_from_rev i f).start ≤ i.index ∧
    i.index < (c.scan_from_rev i f).end_ ∧
    (c.scan_from_rev i f).end_ ≤ c.len := by
  have hstart : (c.scan_from_rev i f).start =
      i.index - (((c.container.take i.index).reverse.takeWhile f)).length := by
    show scanLoopRev f ((c.container.take i.index).reverse) i.index = _
    rw [scanLoopRev_eq]
  refine ⟨rfl, rfl, rfl, hstart, ?_, ?_, ?_⟩
  · omega
  · show i.index < i.index + 1
    omega
  · show i.index + 1 ≤ c.len
    omega

/-- Witness for C5: on storage `[1,2,3,4,5,6,7]` at the index of value 4
with predicate `2 < x`, the backward scan extends one element back. -/
theorem scan_from_rev_spec_witness :
    ((region 0 ([1, 2, 3, 4, 5, 6, 7] : List Nat)).scan_from_rev
        ⟨3, 0, Proof.NonEmpty⟩ (fun x => decide (2 < x))).end_ = 4 :=
  (scan_from_rev_spec Nat _ ⟨3, 0, Proof.NonEmpty⟩ _ rfl (by decide)).2.2.1

/-- C6: splitting a container of length L at an index i with i ≤ L gives a
left half of length i, a right half of length L - i, lengths summing to L,
the concatenation of left then right equal to the original elements in
order, and `split_at_mut` computing the same partition. -/
theorem split_at_spec {T : Type} (c : Container T) (i : Index) (bl br : Nat)
    (h : i.integer ≤ c.len) :
    (c.split_at i bl br).1.len = i.integer ∧
    (c.split_at i bl br).2.len = c.len - i.integer ∧
    (c.split_at i bl br).1.len + (c.split_at i bl br).2.len = c.len ∧
    (c.split_at i bl br).1.container ++ (c.split_at i bl br).2.container =
      c.container ∧
    c.split_at_mut i bl br = c.split_at i bl br := by
  refine ⟨?_, ?_, ?_, ?_, rfl⟩
  · show (c.container.take i.integer).length = i.integer
    rw [List.length_take]
    exact Nat.min_eq_left h
  · show (c.container.drop i.integer).length = c.len - i.integer
    rw [List.length_drop]
    rfl
  · show (c.container.take i.integer).length +
        (c.container.drop i.integer).length = c.len
    rw [List.length_take, List.length_drop]
    have hL : c.len = c.container.length := rfl
    omega
  · exact List.take_append_drop _ _

/-- Witness for C6 on a concrete three-element container. -/
theorem split_at_spec_witness :
    ((region 0 ([1, 2, 3] : List Nat)).split_at ⟨1, 0, Proof.NonEmpty⟩ 1 2).1.len
      = 1 :=
  (split_at_spec _ ⟨1, 0, Proof.NonEmpty⟩ 1 2 (by decide)).1

/-- C7: `nonempty()` returns Some of the same span retagged `NonEmpty`
exactly when start < end, and returns None (an absence marker, no panic)
exactly when start ≥ end. -/
theorem nonempty_spec (r : Range) :
    (r.nonempty = some ⟨r.start, r.end_, r.brand, Proof.NonEmpty⟩ ↔
      r.start < r.end_) ∧
    (r.nonempty = none ↔ r.end_ ≤ r.start) := by
  by_cases hc : r.start ≥ r.end_
  · have h1 : r.nonempty = none := by simp [Range.nonempty, Range.is_empty, hc]
    rw [h1]
    refine ⟨⟨fun h => absurd h (by simp), fun h => absurd h (by omega)⟩,
      ⟨fun _ => by omega, fun _ => rfl⟩⟩
  · have h1 : r.nonempty = some ⟨r.start, r.end_, r.brand, Proof.NonEmpty⟩ := by
      simp [Range.nonempty, Range.is_empty, hc]
    rw [h1]
    refine ⟨⟨fun _ => by omega, fun _ => rfl⟩,
      ⟨fun h => absurd h (by simp), fun h => absurd h (by omega)⟩⟩

/-- Witness for C7 on concrete nonempty and empty spans. -/
theorem nonempty_spec_witness :
    (⟨0, 2, 7, Proof.Unknown⟩ : Range).nonempty =
      some ⟨0, 2, 7, Proof.NonEmpty⟩ ∧
    (⟨5, 5, 7, Proof.Unknown⟩ : Range).nonempty = none :=
  ⟨(nonempty_spec ⟨0, 2, 7, Proof.Unknown⟩).1.mpr (by decide),
   (nonempty_spec ⟨5, 5, 7, Proof.Unknown⟩).2.mpr (by decide)⟩

/-- C8: on a `NonEmpty` range (so start < end), `advance` (resp.
`advance_back`) returns true and shrinks the span by one from the front
(resp. back) exactly when the shrunk span still satisfies start < end;
otherwise it returns false and leaves start and end unchanged. -/
theorem advance_spec (r : Range) (hp : r.proof = Proof.NonEmpty)
    (hne : r.start < r.end_) :
    (r.advance.1 = true ↔ r.start + 1 < r.end_) ∧
    (r.start + 1 < r.end_ →
      r.advance.2 = ⟨r.start + 1, r.end_, r.brand, r.proof⟩) ∧
    (¬ r.start + 1 < r.end_ → r.advance.2 = r) ∧
    (r.advance_back.1 = true ↔ r.start < r.end_ - 1) ∧
    (r.start < r.end_ - 1 →
      r.advance_back.2 = ⟨r.start, r.end_ - 1, r.brand, r.proof⟩) ∧
    (¬ r.start < r.end_ - 1 → r.advance_back.2 = r) := by
  by_cases h1 : r.start + 1 < r.end_ <;> by_cases h2 : r.start < r.end_ - 1 <;>
    simp [Range.advance, Range.advance_back, h1, h2]

/-- Witness for C8 on a concrete `NonEmpty` range. -/
theorem advance_spec_witness :
    (⟨0, 3, 0, Proof.NonEmpty⟩ : Range).advance.2 =
      ⟨1, 3, 0, Proof.NonEmpty⟩ :=
  (advance_spec ⟨0, 3, 0, Proof.NonEmpty⟩ rfl (by decide)).2.1 (by decide)

/-- C9: swapping two valid same-brand indexes exchanges the elements at the
two positions, leaves every other position unchanged, preserves the length
and brand, and is a no-op when the two indexes are equal. -/
theorem swap_spec {T : Type} (c : Container T) (a b : Index)
    (hab : a.brand = c.brand) (hbb : b.brand = c.brand)
    (ha : a.integer < c.len) (hb : b.integer < c.len) :
    (c.swap a b).brand = c.brand ∧
    (c.swap a b).len = c.len ∧
    (c.swap a b).container.get? a.integer = c.container.get? b.integer ∧
    (c.swap a b).container.get? b.integer = c.container.get? a.integer ∧
    (∀ k : Nat, k ≠ a.integer → k ≠ b.integer →
        (c.swap a b).container.get? k = c.container.get? k) ∧
    (a.integer = b.integer → c.swap a b = c) := by
  obtain ⟨x, hx⟩ : ∃ x, c.container.get? a.integer = some x := by
    cases hgx : c.container.get? a.integer with
    | none =>
        have := List.get?_eq_none.mp hgx
        exact absurd this (by have : a.integer < c.container.length := ha; omega)
    | some v => exact ⟨v, rfl⟩
  obtain ⟨y, hy⟩ : ∃ y, c.container.get? b.integer = some y := by
    cases hgy : c.container.get? b.integer with
    | none =>
        have := List.get?_eq_none.mp hgy
        exact absurd this (by have : b.integer < c.container.length := hb; omega)
    | some v => exact ⟨v, rfl⟩
  have hswap : listSwap c.container a.integer b.integer =
      (c.container.set a.integer y).set b.integer x := by
    unfold listSwap
    rw [hx, hy]
  have hlen1 : (c.container.set a.integer y).length = c.container.length :=
    List.length_set ..
  refine ⟨rfl, ?_, ?_, ?_, ?_, ?_⟩
  · show (listSwap c.container a.integer b.integer).length = c.container.length
    rw [hswap, List.length_set, List.length_set]
  · show (listSwap c.container a.integer b.integer).get? a.integer =
        c.container.get? b.integer
    rw [hswap, hy]
    by_cases heq : a.integer = b.integer
    · rw [heq]
      rw [List.get?_set_eq_of_lt]
      · have hxy : x = y := by
          rw [heq] at hx
          rw [hx] at hy
          exact Option.some.inj hy
        rw [hxy]
      · rw [List.length_set]
        exact hb
    · rw [List.get?_set_ne _ _ (fun hcontra => heq hcontra.symm),
        List.get?_set_eq_of_lt _ ha]
  · show (listSwap c.container a.integer b.integer).get? b.integer =
        c.container.get? a.integer
    rw [hswap, hx, List.get?_set_eq_of_lt]
    rw [hlen1]
    exact hb
  · intro k hka hkb
    show (listSwap c.container a.integer b.integer).get? k = c.container.get? k
    rw [hswap, List.get?_set_ne _ _ (fun hcontra => hkb hcontra.symm),
      List.get?_set_ne _ _ (fun hcontra => hka hcontra.symm)]
  · intro hEq
    have hxy : x = y := by
      rw [hEq] at hx
      rw [hx] at hy
      exact Option.some.inj hy
    have hcont : listSwap c.container a.integer b.integer = c.container := by
      rw [hswap, hEq, ← hxy, List.set_set]
      exact set_of_getq (hEq ▸ hx)
    exact congrArg (Container.mk c.brand) hcont

/-- Witness for C9 on a concrete three-element container. -/
theorem swap_spec_witness :
    ((region 0 ([1, 2, 3] : List Nat)).swap ⟨0, 0, Proof.NonEmpty⟩
        ⟨2, 0, Proof.NonEmpty⟩).container.get? 0 =
      (region 0 ([1, 2, 3] : List Nat)).container.get? 2 :=
  (swap_spec _ ⟨0, 0, Proof.NonEmpty⟩ ⟨2, 0, Proof.NonEmpty⟩ rfl rfl
    (by decide) (by decide)).2.2.1

/-- C10: on a range with start ≤ end, `contains(i)` returns Some exactly
when start ≤ i < end, the returned Index has `integer() == i`, and
otherwise it returns None. -/
theorem contains_spec (r : Range) (h : r.start ≤ r.end_) (n : Nat) :
    (∀ i : Index, r.contains n = some i ↔
      (r.start ≤ n ∧ n < r.end_ ∧ i = ⟨n, r.brand, r.proof⟩)) ∧
    (r.contains n = none ↔ (n < r.start ∨ r.end_ ≤ n)) ∧
    (∀ i : Index, r.contains n = some i → i.integer = n) := by
  by_cases hc : r.start ≤ n ∧ n < r.end_
  · have he : r.contains n = some ⟨n, r.brand, r.proof⟩ := by
      simp [Range.contains, hc]
    rw [he]
    refine ⟨fun i => ?_, ?_, fun i hsome => ?_⟩
    · constructor
      · intro hsome
        exact ⟨hc.1, hc.2, (Option.some.inj hsome).symm⟩
      · rintro ⟨-, -, rfl⟩
        rfl
    · constructor
      · intro hnone
        exact absurd hnone (by simp)
      · intro hor
        exact absurd hor (by omega)
    · obtain rfl := Option.some.inj hsome
      rfl
  · have he : r.contains n = none := by simp [Range.contains, hc]
    rw [he]
    refine ⟨fun i => ?_, ?_, fun i hsome => absurd hsome (by simp)⟩
    · constructor
      · intro hnone
        exact absurd hnone (by simp)
      · rintro ⟨h1, h2, -⟩
        exact absurd (And.intro h1 h2) hc
    · exact ⟨fun _ => by omega, fun _ => rfl⟩

/-- Witness for C10 on a concrete span. -/
theorem contains_spec_witness :
    (⟨1, 4, 0, Proof.Unknown⟩ : Range).contains 2 = some ⟨2, 0, Proof.Unknown⟩ :=
  ((contains_spec ⟨1, 4, 0, Proof.Unknown⟩ (by decide) 2).1
    ⟨2, 0, Proof.Unknown⟩).mpr (by decide)
